import Mathlib

/-!
Verification of the flatcat file-selection and rendering engine
(`src/flatcat/stitcher.py`, `src/flatcat/tree.py`) against its
natural-language specification.

The Python code is shallowly embedded:
* text is modelled as `List Char` (Python `str` is a sequence of code
  points, compared lexicographically by code point);
* the filesystem is a pure tree `FSNode`; each file carries the outcomes
  of the independent system calls made on it (`stat`, the binary sample
  read, the lossy `read_text`), with `none` standing for the raised
  `OSError`/`PermissionError` branch;
* general recursion of the Python functions over filesystem trees and
  pattern strings is embedded with an explicit structural fuel argument
  that strictly exceeds the recursion depth at every top-level call, so
  every definition is executable and kernel-reducible;
* the one external tool boundary (git / the pathspec library) is kept as
  the same data `write_markdown` receives: an optional set of
  non-ignored files and an optional matcher predicate.
-/

namespace Flatcat

/-! ## Code-point orders (Python `str` comparison) -/

/-- Lexicographic strict order on code-point sequences; this is exactly
Python's `<` on `str`. -/
def charListLt : List Char → List Char → Bool
  | [], [] => false
  | [], _ :: _ => true
  | _ :: _, [] => false
  | a :: as, b :: bs => decide (a < b) || (a == b && charListLt as bs)

/-- Lexicographic `≤` on code-point sequences; this is exactly Python's
`<=` on `str`, the comparison `sorted` uses on names. -/
def charListLe : List Char → List Char → Bool
  | [], _ => true
  | _ :: _, [] => false
  | a :: as, b :: bs => decide (a < b) || (a == b && charListLe as bs)

theorem charListLe_total (s t : List Char) :
    charListLe s t = true ∨ charListLe t s = true := by
  induction s generalizing t with
  | nil => left; rfl
  | cons a as ih =>
    cases t with
    | nil => right; rfl
    | cons b bs =>
      rcases lt_trichotomy a b with h | h | h
      · left; simp [charListLe, h]
      · subst h
        rcases ih bs with h2 | h2
        · left; simp [charListLe, h2]
        · right; simp [charListLe, h2]
      · right; simp [charListLe, h]

theorem charListLe_trans {s t u : List Char} (h1 : charListLe s t = true)
    (h2 : charListLe t u = true) : charListLe s u = true := by
  induction s generalizing t u with
  | nil => rfl
  | cons a as ih =>
    cases t with
    | nil => simp [charListLe] at h1
    | cons b bs =>
      cases u with
      | nil => simp [charListLe] at h2
      | cons c cs =>
        simp only [charListLe, Bool.or_eq_true, Bool.and_eq_true,
          decide_eq_true_eq, beq_iff_eq] at h1 h2 ⊢
        rcases h1 with h1 | ⟨rfl, h1⟩
        · rcases h2 with h2 | ⟨rfl, h2⟩
          · exact Or.inl (lt_trans h1 h2)
          · exact Or.inl h1
        · rcases h2 with h2 | ⟨rfl, h2⟩
          · exact Or.inl h2
          · exact Or.inr ⟨rfl, ih h1 h2⟩

/-! ## Stable sorting (Python `sorted`)

Python's `sorted` is exactly characterised by its output being sorted
with respect to the key and stable (elements with equal keys keep their
relative order).  Stable insertion, folded over the input left to right,
has the same characterisation, so it is the embedding of `sorted`. -/

/-- Insert `a` after every element `b` with `le b a` (so after all
elements whose key is `≤` the key of `a`, which preserves stability). -/
def insertSorted (le : α → α → Bool) (a : α) : List α → List α
  | [] => [a]
  | b :: bs => if le b a then b :: insertSorted le a bs else a :: b :: bs

/-- Stable sort by the boolean relation `le`: the embedding of Python's
`sorted(xs, key=...)` where `le x y` decides `key(x) <= key(y)`. -/
def sortByStable (le : α → α → Bool) (l : List α) : List α :=
  l.foldl (fun acc a => insertSorted le a acc) []

theorem mem_insertSorted (le : α → α → Bool) (a y : α) (l : List α) :
    y ∈ insertSorted le a l ↔ y = a ∨ y ∈ l := by
  induction l with
  | nil => simp [insertSorted]
  | cons b bs ih =>
    by_cases hba : le b a = true
    · simp only [insertSorted, hba, if_true, List.mem_cons, ih]
      tauto
    · simp only [insertSorted]
      rw [if_neg hba]
      simp only [List.mem_cons]

theorem insertSorted_pairwise (le : α → α → Bool)
    (total : ∀ a b, le a b = true ∨ le b a = true)
    (trans : ∀ a b c, le a b = true → le b c = true → le a c = true)
    (a : α) (l : List α) (h : List.Pairwise (fun x y => le x y = true) l) :
    List.Pairwise (fun x y => le x y = true) (insertSorted le a l) := by
  induction l with
  | nil => simp [insertSorted]
  | cons b bs ih =>
    rw [List.pairwise_cons] at h
    by_cases hba : le b a = true
    · simp only [insertSorted, hba, if_true]
      rw [List.pairwise_cons]
      refine ⟨?_, ih h.2⟩
      intro y hy
      rcases (mem_insertSorted le a y bs).mp hy with rfl | hy
      · exact hba
      · exact h.1 y hy
    · simp only [insertSorted]
      rw [if_neg hba]
      rw [List.pairwise_cons]
      refine ⟨?_, List.pairwise_cons.mpr h⟩
      intro y hy
      have hab : le a b = true := by
        rcases total a b with h' | h'
        · exact h'
        · exact absurd h' hba
      rcases List.mem_cons.mp hy with rfl | hy
      · exact hab
      · exact trans a b y hab (h.1 y hy)

theorem sortByStable_pairwise (le : α → α → Bool)
    (total : ∀ a b, le a b = true ∨ le b a = true)
    (trans : ∀ a b c, le a b = true → le b c = true → le a c = true)
    (l : List α) :
    List.Pairwise (fun x y => le x y = true) (sortByStable le l) := by
  have main : ∀ (l : List α) (acc : List α),
      List.Pairwise (fun x y => le x y = true) acc →
      List.Pairwise (fun x y => le x y = true)
        (l.foldl (fun acc a => insertSorted le a acc) acc) := by
    intro l
    induction l with
    | nil => intro acc h; exact h
    | cons a as ih =>
      intro acc h
      exact ih (insertSorted le a acc) (insertSorted_pairwise le total trans a acc h)
  exact main l [] List.Pairwise.nil

theorem insertSorted_perm (le : α → α → Bool) (a : α) (l : List α) :
    (insertSorted le a l).Perm (a :: l) := by
  induction l with
  | nil => simp [insertSorted]
  | cons b bs ih =>
    by_cases hba : le b a = true
    · simp only [insertSorted, hba, if_true]
      exact (ih.cons b).trans (List.Perm.swap a b bs)
    · simp [insertSorted, hba]

theorem sortByStable_perm (le : α → α → Bool) (l : List α) :
    (sortByStable le l).Perm l := by
  have main : ∀ (l : List α) (acc : List α),
      (l.foldl (fun acc a => insertSorted le a acc) acc).Perm (acc ++ l) := by
    intro l
    induction l with
    | nil => intro acc; simp
    | cons a as ih =>
      intro acc
      refine ((ih (insertSorted le a acc)).trans ?_)
      have h1 : (insertSorted le a acc).Perm (a :: acc) := insertSorted_perm le a acc
      have h2 : ((a :: acc) ++ as).Perm (acc ++ a :: as) := by
        simpa using (List.perm_middle).symm
      exact (h1.append_right as).trans h2
  simpa [sortByStable] using main l []

theorem mem_sortByStable (le : α → α → Bool) (a : α) (l : List α) :
    a ∈ sortByStable le l ↔ a ∈ l :=
  (sortByStable_perm le l).mem_iff

theorem insertSorted_map (le : α → α → Bool) (g : α → β) (lee : β → β → Bool)
    (hg : ∀ a b, lee (g a) (g b) = le a b) (a : α) (l : List α) :
    insertSorted lee (g a) (l.map g) = (insertSorted le a l).map g := by
  induction l with
  | nil => simp [insertSorted]
  | cons b bs ih =>
    simp only [List.map_cons, insertSorted, hg]
    by_cases hba : le b a = true
    · simp [hba, ih]
    · simp [hba]

theorem sortByStable_map (le : α → α → Bool) (g : α → β) (lee : β → β → Bool)
    (hg : ∀ a b, lee (g a) (g b) = le a b) (l : List α) :
    sortByStable lee (l.map g) = (sortByStable le l).map g := by
  have main : ∀ (l acc : List α),
      (l.map g).foldl (fun acc a => insertSorted lee a acc) (acc.map g)
        = (l.foldl (fun acc a => insertSorted le a acc) acc).map g := by
    intro l
    induction l with
    | nil => intro acc; simp
    | cons a as ih =>
      intro acc
      simp only [List.map_cons, List.foldl_cons]
      rw [insertSorted_map le g lee hg a acc, ih]
  simpa [sortByStable] using main l []

/-! ## Path-component glob matching

`PurePath.match` (used by `rel.match(pat)` in `is_ignored_path`) splits
the pattern into components and matches each pattern component against
the corresponding trailing path component with `fnmatch` semantics:
`*` and `?` never cross a separator (components are matched one by one),
`[seq]` is a character class with ranges and `!` negation, an unclosed
`[` is a literal, and the whole component must be consumed.  On POSIX
matching is case sensitive, and `**` inside a component behaves like
`*`.  The matcher consumes at least one pattern or subject character per
step, so `fuel = pattern length + subject length + 1` is never
exhausted at the call in `fnmatchChars`. -/

/-- Scan the body of a character class up to the closing `]`, returning
the class characters and the remaining pattern, or `none` when the class
is unterminated. -/
def splitBracketAux : List Char → List Char → Option (List Char × List Char)
  | _, [] => none
  | acc, ']' :: rest => some (acc.reverse, rest)
  | acc, c :: rest => splitBracketAux (c :: acc) rest

/-- Parse a character class after the opening `[`: a leading `!`
negates, and a `]` right after `[` (or after `[!`) is a literal member.
Returns (class body, negated, rest of pattern). -/
def splitBracket : List Char → Option (List Char × Bool × List Char)
  | '!' :: ']' :: rest => (splitBracketAux [']'] rest).map (fun p => (p.1, true, p.2))
  | '!' :: rest => (splitBracketAux [] rest).map (fun p => (p.1, true, p.2))
  | ']' :: rest => (splitBracketAux [']'] rest).map (fun p => (p.1, false, p.2))
  | rest => (splitBracketAux [] rest).map (fun p => (p.1, false, p.2))

/-- Membership of a character in a class body: `a-b` is a code-point
range (a `-` at the end is a literal). -/
def classMatch : List Char → Char → Bool
  | a :: '-' :: b :: rest, c => (decide (a ≤ c) && decide (c ≤ b)) || classMatch rest c
  | a :: rest, c => a == c || classMatch rest c
  | [], _ => false

/-- Fuelled `fnmatch` on one path component. -/
def fnmatchChars : Nat → List Char → List Char → Bool
  | 0, _, _ => false
  | _ + 1, [], [] => true
  | _ + 1, [], _ :: _ => false
  | fuel + 1, '*' :: ps, s =>
    fnmatchChars fuel ps s ||
      (match s with
       | [] => false
       | _ :: s2 => fnmatchChars fuel ('*' :: ps) s2)
  | fuel + 1, '?' :: ps, s =>
    (match s with
     | [] => false
     | _ :: s2 => fnmatchChars fuel ps s2)
  | fuel + 1, '[' :: ps, s =>
    (match splitBracket ps with
     | some (cls, neg, rest) =>
       (match s with
        | [] => false
        | c :: s2 => (classMatch cls c != neg) && fnmatchChars fuel rest s2)
     | none =>
       (match s with
        | [] => false
        | c :: s2 => (c == '[') && fnmatchChars fuel ps s2))
  | fuel + 1, p :: ps, s =>
    (match s with
     | [] => false
     | c :: s2 => (p == c) && fnmatchChars fuel ps s2)

/-- One pattern component against one path component. -/
def fnmatchComponent (pat comp : List Char) : Bool :=
  fnmatchChars (pat.length + comp.length + 1) pat comp

/-- A path relative to the root, as its list of components. -/
abbrev RelPath := List String

/-- Split a character sequence at `/` separators. -/
def splitSlash : List Char → List (List Char)
  | [] => [[]]
  | '/' :: rest => [] :: splitSlash rest
  | c :: rest =>
    match splitSlash rest with
    | [] => [[c]]
    | p :: ps => (c :: p) :: ps

/-- Pattern components, as `PurePath(pattern).parts`: split on `/`,
dropping empty components and single dots. -/
def patParts (pat : String) : List (List Char) :=
  (splitSlash pat.toList).filter (fun c => !c.isEmpty && c ≠ ['.'])

/-- Embedding of `rel.match(pat)` for a relative pattern: the pattern
components must match the trailing components of the path one by one
(matching is anchored on the right).  `PurePath.match` raises on an
empty pattern; the configuration never contains one, and the model
returns `false` there. -/
def relMatch (rel : RelPath) (pat : String) : Bool :=
  let pp := patParts pat
  !pp.isEmpty && pp.length ≤ rel.length &&
    ((rel.drop (rel.length - pp.length)).zip pp).all
      (fun cp => fnmatchComponent cp.2 cp.1.toList)

/-! ## `Path.suffix` and the configuration record -/

/-- Index of the last `.` in a name, if any. -/
def lastDotIdx (cs : List Char) : Option Nat :=
  ((cs.enum.filter (fun p => p.2 = '.')).map (fun p => p.1)).getLast?

/-- Embedding of `PurePath.suffix` on one name: the extension from the
last dot, unless that dot is the first or the last character. -/
def pySuffix (nm : String) : String :=
  let cs := nm.toList
  match lastDotIdx cs with
  | some i => if 0 < i ∧ i < cs.length - 1 then String.mk (cs.drop i) else ""
  | none => ""

/-- The include/exclude pattern lists of the `[filters]` table. -/
structure Filters where
  include' : List String
  exclude : List String

/-- Output formatting templates of the `[format]` table. -/
structure OutFormat where
  preamble : String
  heading : String
  fence_language_from_extension : Bool

/-- Modelled from the spec: the configuration record (`FilterConfig`,
spec §3).  `config.py` itself is not under `src/`; the fields and their
meaning are exactly the attributes `stitcher.py`, `tree.py` and `cli.py`
read (`cfg.root`, `cfg.filters.include/exclude`, `cfg.ignore_extensions`,
`cfg.respect_gitignore`, `cfg.tree_depth`, `cfg.include_tree`,
`cfg.format.*`).  `rootName` stands for the display string `str(root)`;
paths below the root are handled relative to it.  Python's `include`
is a reserved word in Lean, hence `include'`. -/
structure Config where
  rootName : String
  filters : Filters
  ignore_extensions : List String
  respect_gitignore : Bool
  tree_depth : Nat
  include_tree : Bool
  format : OutFormat

/-! ## `is_ignored_path`, `is_text_file`, `should_include`
(src/flatcat/stitcher.py) -/

/-- Embedding of `is_ignored_path(path, cfg, allowed_by_git, pspec)`.
`rel` is `path.relative_to(cfg.root)`; `isDir` is `path.is_dir()` (every
entry under the root is a regular file or a directory, so `path.is_file()`
is its negation).  `allowed_by_git` is the optional set of files git
reports as not ignored; `pspec` is the optional compiled `.gitignore`
matcher of the external pathspec library, kept abstract as the predicate
`write_markdown` hands over. -/
def is_ignored_path (rel : RelPath) (isDir : Bool) (cfg : Config)
    (allowed_by_git : Option (List RelPath)) (pspec : Option (RelPath → Bool)) : Bool :=
  -- Check exclude patterns first - these override everything else
  if cfg.filters.exclude.any (fun pat => relMatch rel pat) then
    true
  -- Check extension ignores
  else if cfg.ignore_extensions.contains (pySuffix (rel.getLast?.getD "")) then
    true
  -- include list: if present, anything not matched is "ignored"
  else if !cfg.filters.include'.isEmpty &&
      (if isDir then !cfg.filters.include'.any (fun p => relMatch rel p)
       else !cfg.filters.include'.any (fun p => relMatch rel p)) then
    true
  else if cfg.respect_gitignore then
    -- `if allowed_by_git is not None and path.is_file(): return path not in allowed_by_git`
    match allowed_by_git with
    | some allowed =>
      if !isDir then !(allowed.contains rel)
      else (match pspec with
            | some f => f rel
            | none => false)
    | none =>
      (match pspec with
       | some f => f rel
       | none => false)
  else false

/-- Outcomes of the system calls made on one file during a run: the
`stat` size, the bounded binary sample `open("rb").read(...)` would
yield (the file's bytes), and the code points `read_text(encoding="utf-8",
errors="ignore")` would yield.  `none` is the raised-`OSError` /
`PermissionError` branch of the corresponding call. -/
structure FileData where
  statSize : Option Nat
  sampleBytes : Option (List Nat)
  textContent : Option (List Char)
deriving DecidableEq

/-- Embedding of `is_text_file(path, blocksize=512)`: files above 50 MiB
are non-text without reading content, empty files are text, otherwise a
`min(blocksize, file_size, 1024)`-byte prefix is read and a null byte
classifies as non-text; any error in `stat` or the read returns `False`.
Call sites pass `blocksize = 512`, the Python default. -/
def is_text_file (d : FileData) (blocksize : Nat) : Bool :=
  match d.statSize with
  | none => false
  | some file_size =>
    -- Skip very large files (>50MB) to prevent hanging
    if file_size > 50 * 1024 * 1024 then false
    -- Skip empty files
    else if file_size == 0 then true
    else
      match d.sampleBytes with
      | none => false
      | some bytes =>
        -- Read only a small sample: read_size = min(blocksize, file_size, 1024)
        !((bytes.take (min (min blocksize file_size) 1024)).contains 0)

/-- Embedding of `lang_from_suffix(path)`: `path.suffix[1:] or "text"`. -/
def lang_from_suffix (nm : String) : String :=
  let s := (pySuffix nm).drop 1
  if s = "" then "text" else s

/-- Embedding of `should_include(path, cfg, allowed_by_git, pspec)`:
the inclusion decision for files (so `path.is_dir()` is `false`). -/
def should_include (rel : RelPath) (cfg : Config)
    (allowed_by_git : Option (List RelPath)) (pspec : Option (RelPath → Bool)) : Bool :=
  !(is_ignored_path rel false cfg allowed_by_git pspec)

/-! ## Filesystem model -/

/-- A directory entry: a regular file with its per-run system-call
outcomes, or a directory with its children in the order the operating
system enumerates them (`iterdir` / `os.scandir` order) and a flag for
whether listing it succeeds (`False` embeds the `PermissionError`
branch). -/
inductive FSNode where
  | file (nm : String) (data : FileData)
  | dir (nm : String) (listable : Bool) (children : List FSNode)

/-- Name of an entry (`entry.name`). -/
def FSNode.name : FSNode → String
  | .file nm _ => nm
  | .dir nm _ _ => nm

/-- Whether an entry is a regular file (`entry.is_file()`; directories
answer `entry.is_dir()`, its negation for the entries modelled here). -/
def FSNode.isFile : FSNode → Bool
  | .file _ _ => true
  | .dir _ _ _ => false

/-- The sort key of `build_ascii_tree`:
`sorted(dir_path.iterdir(), key=lambda p: (p.is_file(), p.name))`, i.e.
the `≤` on the pair (is-file, name) with `False < True` and names
compared by code point. -/
def entryLe (a b : FSNode) : Bool :=
  (!a.isFile && b.isFile) ||
    (a.isFile == b.isFile && charListLe a.name.toList b.name.toList)

/-! ## `build_ascii_tree` (src/flatcat/tree.py)

The nested `walk` is embedded as `walkLevel` (the `for` loop over the
sorted entries of one directory) and `walkNodeF` (one `walk(dir_path,
depth)` call: the depth guard, the `iterdir` with its `PermissionError`
guard, and the sort).  The recursion into subdirectories is fuelled;
`build_ascii_tree` passes `sizeOf root`, which strictly exceeds the
directory nesting depth of `root`. -/

/-- The loop body of `walk` over the (already sorted) entries of one
directory.  `rel` is the directory's path relative to the root, `pfx`
the accumulated `"".join(prefix_stack)`, `sub` the recursive call made
through `subF` for non-ignored directory entries. -/
def walkLevel (ign : Option (RelPath → Bool))
    (subF : FSNode → RelPath → Nat → List Char → List (List Char)) :
    List FSNode → RelPath → Nat → List Char → List (List Char)
  | [], _, _, _ => []
  | e :: rest, rel, depth, pfx =>
    let ilast := rest.isEmpty
    let branch := (if ilast then "└── " else "├── ").toList
    let erel := rel ++ [e.name]
    let ignored := !e.isFile &&
      (match ign with
       | some f => f erel
       | none => false)
    let label := e.name.toList ++ (if ignored then " *".toList else [])
    let sub :=
      if !e.isFile && !ignored then
        subF e erel (depth + 1) (pfx ++ (if ilast then "    " else "│   ").toList)
      else []
    (pfx ++ branch ++ label) :: (sub ++ walkLevel ign subF rest rel depth pfx)

/-- One `walk(dir_path, depth)` call, fuelled: bail out beyond the depth
limit (`max_depth and depth > max_depth`), bail out when `iterdir`
raises `PermissionError`, otherwise render the sorted entries.  `depth`
is the nesting depth of this directory's children; `walk` is only ever
invoked on directories. -/
def walkNodeF (maxDepth : Nat) (ign : Option (RelPath → Bool)) :
    Nat → FSNode → RelPath → Nat → List Char → List (List Char)
  | 0, _, _, _, _ => []
  | _ + 1, .file _ _, _, _, _ => []
  | fuel + 1, .dir _ listable children, rel, depth, pfx =>
    if maxDepth ≠ 0 && depth > maxDepth then []
    else if !listable then []
    else walkLevel ign (walkNodeF maxDepth ign fuel)
      (sortByStable entryLe children) rel depth pfx

/-- Embedding of `"\n".join(lines)`. -/
def joinLines : List (List Char) → List Char
  | [] => []
  | [l] => l
  | l :: rest => l ++ '\n' :: joinLines rest

/-- Embedding of `build_ascii_tree(root, max_depth, is_dir_ignored)`:
the line `str(root)` followed by the recursive walk starting at depth 1
with an empty prefix stack.  `fuel` is the embedding's recursion bound:
the Python recursion terminates because directory nesting is finite, and
every fuel value strictly above the nesting depth of `root` yields the
same result, the function's value. -/
def build_ascii_tree (rootLabel : List Char) (maxDepth : Nat)
    (ign : Option (RelPath → Bool)) (fuel : Nat) (root : FSNode) : List Char :=
  joinLines (rootLabel :: walkNodeF maxDepth ign fuel root [] 1 [])

/-! ## The `write_markdown` content loop (src/flatcat/stitcher.py)

`os.walk(cfg.root)` is a top-down traversal: it yields the root's
`(dirpath, dirnames, filenames)` triple first and then recurses into
each subdirectory in enumeration order; a directory whose listing fails
yields nothing.  The loop sorts each directory's `filenames` and then
applies, in order: the 10 MiB / stat-error skip, the `is_text_file`
skip, and the `should_include` skip. -/

/-- A directory entry as an `os.walk` filename with its data. -/
def fileEntry : FSNode → Option (String × FileData)
  | .file nm d => some (nm, d)
  | .dir _ _ _ => none

/-- Key for `sorted(filenames)`: plain code-point order on the names. -/
def nameLe (a b : String × FileData) : Bool :=
  charListLe a.1.toList b.1.toList

/-- The sorted filename list of one directory (`sorted(filenames)`,
paired with each file's data; real directories never repeat a name). -/
def dirFilePairs (children : List FSNode) : List (String × FileData) :=
  sortByStable nameLe (children.filterMap fileEntry)

/-- Recursion of `os.walk` into the subdirectories of one directory, in
enumeration order. -/
def walkSubdirs (subF : FSNode → RelPath → List (RelPath × FileData)) :
    List FSNode → RelPath → List (RelPath × FileData)
  | [], _ => []
  | e :: rest, rel =>
    (if e.isFile then [] else subF e (rel ++ [e.name])) ++ walkSubdirs subF rest rel

/-- Fuelled `os.walk` producing every file the content loop iterates
over, as (path relative to root, file data), in iteration order. -/
def walkFilesF : Nat → FSNode → RelPath → List (RelPath × FileData)
  | 0, _, _ => []
  | _ + 1, .file _ _, _ => []
  | fuel + 1, .dir _ listable children, rel =>
    if !listable then []
    else
      (dirFilePairs children).map (fun nd => (rel ++ [nd.1], nd.2))
        ++ walkSubdirs (walkFilesF fuel) children rel

/-- Every file `write_markdown`'s loop visits, in iteration order.
`fuel` is the embedding's recursion bound, as in `build_ascii_tree`. -/
def walkFiles (fuel : Nat) (root : FSNode) : List (RelPath × FileData) :=
  walkFilesF fuel root []

/-- The early size gate of the loop: skip when `stat` fails and when
`p.stat().st_size > 10 * 1024 * 1024`. -/
def sizeOkForRender (d : FileData) : Bool :=
  match d.statSize with
  | none => false
  | some sz => !(sz > 10 * 1024 * 1024)

/-- Whether the loop renders a file: the three `continue` gates in
order (size, text sniff, inclusion decision). -/
def renderedFile (cfg : Config) (allowed_by_git : Option (List RelPath))
    (pspec : Option (RelPath → Bool)) (p : RelPath) (d : FileData) : Bool :=
  sizeOkForRender d && is_text_file d 512 && should_include p cfg allowed_by_git pspec

/-- The files whose heading + fenced block reach the output, in the
order they are written. -/
def candidatePairs (cfg : Config) (allowed_by_git : Option (List RelPath))
    (pspec : Option (RelPath → Bool)) (fuel : Nat) (root : FSNode) :
    List (RelPath × FileData) :=
  (walkFiles fuel root).filter (fun pd => renderedFile cfg allowed_by_git pspec pd.1 pd.2)

/-! ## Rendering one file and the full output stream -/

/-- Embedding of `rel.as_posix()`: components joined with `/`. -/
def relPosixChars : RelPath → List Char
  | [] => []
  | [c] => c.toList
  | c :: rest => c.toList ++ '/' :: relPosixChars rest

/-- Replace every occurrence of a marker, fuelled by the subject length
(each step consumes at least one character); the embedding of the
single-placeholder `str.format` calls on the templates. -/
def replaceMarkerF (marker repl : List Char) : Nat → List Char → List Char
  | 0, s => s
  | _ + 1, [] => []
  | fuel + 1, c :: rest =>
    if !marker.isEmpty && marker.isPrefixOf (c :: rest) then
      repl ++ replaceMarkerF marker repl fuel ((c :: rest).drop marker.length)
    else c :: replaceMarkerF marker repl fuel rest

/-- Replace every occurrence of `marker` in `s` by `repl`. -/
def replaceMarker (marker repl s : List Char) : List Char :=
  replaceMarkerF marker repl s.length s

/-- The body written inside a file's fenced block: the lossily decoded
content, truncated at 100000 characters with the truncation notice, or
the error placeholder when reading raised. -/
def renderContent : Option (List Char) → List Char
  | none => "(Error reading file)".toList
  | some content =>
    -- Truncate very long files to prevent overwhelming output
    if content.length > 100000 then
      content.take 100000 ++ "\n\n... (truncated - file too long for LLM context)".toList
    else content

/-- The four `out.write` calls of one file section: heading line,
fence opening with the language tag, body, fence close + separator. -/
def fileChunks (cfg : Config) (p : RelPath) (d : FileData) : List (List Char) :=
  let heading := replaceMarker "\x7bpath\x7d".toList (relPosixChars p) cfg.format.heading.toList
  let lang := if cfg.format.fence_language_from_extension
    then (lang_from_suffix (p.getLast?.getD "")).toList else []
  [heading ++ ['\n'],
   "```".toList ++ lang ++ ['\n'],
   renderContent d.textContent,
   "\n```\n\n".toList]

/-- Every `out.write` call of `write_markdown`, in order: the formatted
preamble, the title, the optional tree block, then each rendered file's
section.  The destination file receives exactly the concatenation of a
prefix of this list when writing stops early, and of the whole list on
success. -/
def writeChunks (cfg : Config) (allowed_by_git : Option (List RelPath))
    (pspec : Option (RelPath → Bool)) (fuel : Nat) (root : FSNode) : List (List Char) :=
  [replaceMarker "\x7broot\x7d".toList cfg.rootName.toList cfg.format.preamble.toList,
   "# Flattened view of `".toList ++ cfg.rootName.toList ++ "`\n\n".toList]
  ++ (if cfg.include_tree then
        ["## Directory tree\n\n```\n".toList,
         build_ascii_tree cfg.rootName.toList cfg.tree_depth
           (some (fun p => is_ignored_path p true cfg allowed_by_git pspec)) fuel root,
         "\n```\n\n".toList,
         "_* = ignored directory (contents not listed)_\n\n".toList]
      else [])
  ++ ((candidatePairs cfg allowed_by_git pspec fuel root).map
        (fun pd => fileChunks cfg pd.1 pd.2)).flatten

/-! ## Order properties of the sort keys -/

theorem entryLe_total (a b : FSNode) : entryLe a b = true ∨ entryLe b a = true := by
  cases ha : a.isFile <;> cases hb : b.isFile <;>
    simp [entryLe, ha, hb] <;>
    exact charListLe_total a.name.toList b.name.toList

theorem entryLe_trans (a b c : FSNode) (h1 : entryLe a b = true)
    (h2 : entryLe b c = true) : entryLe a c = true := by
  cases ha : a.isFile <;> cases hb : b.isFile <;> cases hc : c.isFile <;>
    simp [entryLe, ha, hb, hc] at h1 h2 ⊢ <;>
    first
      | exact charListLe_trans h1 h2
      | trivial

theorem nameLe_total (a b : String × FileData) : nameLe a b = true ∨ nameLe b a = true :=
  charListLe_total a.1.toList b.1.toList

theorem nameLe_trans (a b c : String × FileData) (h1 : nameLe a b = true)
    (h2 : nameLe b c = true) : nameLe a c = true :=
  charListLe_trans h1 h2

/-! ## Tree-surgery functions used to state pruning and depth bounds -/

/-- Remove the whole subtree below every directory whose own relative
path `ign` marks as ignored (and, fuel exhausted, leave deeper levels
alone; the equivalence below holds for every fuel). -/
def pruneOwn (ign : RelPath → Bool) : Nat → RelPath → FSNode → FSNode
  | _, _, .file nm d => .file nm d
  | 0, erel, .dir nm l cs => if ign erel then .dir nm l [] else .dir nm l cs
  | fuel + 1, erel, .dir nm l cs =>
    if ign erel then .dir nm l []
    else .dir nm l (cs.map (fun c => pruneOwn ign fuel (erel ++ [c.name]) c))

/-- Keep only `k` levels below a node: `truncateTo 0` empties a
directory, `truncateTo (k+1)` keeps the children truncated to `k`. -/
def truncateTo : Nat → FSNode → FSNode
  | _, .file nm d => .file nm d
  | 0, .dir nm l _ => .dir nm l []
  | k + 1, .dir nm l cs => .dir nm l (cs.map (fun c => truncateTo k c))

theorem pruneOwn_name (ign : RelPath → Bool) (fuel : Nat) (erel : RelPath)
    (e : FSNode) : (pruneOwn ign fuel erel e).name = e.name := by
  cases e with
  | file nm d => cases fuel <;> rfl
  | dir nm l cs =>
    cases fuel with
    | zero => simp only [pruneOwn]; split <;> rfl
    | succ n => simp only [pruneOwn]; split <;> rfl

theorem pruneOwn_isFile (ign : RelPath → Bool) (fuel : Nat) (erel : RelPath)
    (e : FSNode) : (pruneOwn ign fuel erel e).isFile = e.isFile := by
  cases e with
  | file nm d => cases fuel <;> rfl
  | dir nm l cs =>
    cases fuel with
    | zero => simp only [pruneOwn]; split <;> rfl
    | succ n => simp only [pruneOwn]; split <;> rfl

theorem truncateTo_name (k : Nat) (e : FSNode) : (truncateTo k e).name = e.name := by
  cases e <;> cases k <;> rfl

theorem truncateTo_isFile (k : Nat) (e : FSNode) : (truncateTo k e).isFile = e.isFile := by
  cases e <;> cases k <;> rfl

/-! ## Congruence of the per-directory loop -/

/-- The loop over one directory's entries is unchanged when every entry
is replaced by one with the same name and kind, provided the recursive
calls made for non-ignored directory entries agree. -/
theorem walkLevel_congr (ign : Option (RelPath → Bool))
    (subF subF' : FSNode → RelPath → Nat → List Char → List (List Char))
    (g : FSNode → FSNode)
    (hname : ∀ e, (g e).name = e.name) (hfile : ∀ e, (g e).isFile = e.isFile) :
    ∀ (cs : List FSNode) (rel : RelPath) (depth : Nat) (pfx : List Char),
    (∀ e ∈ cs, e.isFile = false →
      (match ign with
       | some f => f (rel ++ [e.name])
       | none => false) = false →
      ∀ p', subF' (g e) (rel ++ [e.name]) (depth + 1) p'
              = subF e (rel ++ [e.name]) (depth + 1) p') →
    walkLevel ign subF' (cs.map g) rel depth pfx = walkLevel ign subF cs rel depth pfx := by
  intro cs
  induction cs with
  | nil => intro rel depth pfx _; rfl
  | cons e rest ih =>
    intro rel depth pfx hsub
    have hemp : (rest.map g).isEmpty = rest.isEmpty := by cases rest <;> rfl
    simp only [List.map_cons, walkLevel, hname, hfile, hemp]
    have hrest : walkLevel ign subF' (rest.map g) rel depth pfx
        = walkLevel ign subF rest rel depth pfx :=
      ih rel depth pfx (fun e' he' => hsub e' (List.mem_cons_of_mem e he'))
    rw [hrest]
    cases hf : e.isFile with
    | true => simp
    | false =>
      cases hign : (match ign with
        | some f => f (rel ++ [e.name])
        | none => false) with
      | true => simp [hign]
      | false =>
        simp only [hign, Bool.not_false, Bool.and_true, Bool.not_true, Bool.and_false]
        rw [hsub e (List.mem_cons_self e rest) hf hign]

theorem entryLe_of_preserve (g : FSNode → FSNode)
    (hname : ∀ e, (g e).name = e.name) (hfile : ∀ e, (g e).isFile = e.isFile)
    (a b : FSNode) : entryLe (g a) (g b) = entryLe a b := by
  simp [entryLe, hname, hfile]

/-- Unfolding equation of one fuelled `walk` call on a directory. -/
theorem walkNodeF_dir (maxDepth : Nat) (ign : Option (RelPath → Bool)) (fuel : Nat)
    (nm : String) (l : Bool) (cs : List FSNode) (erel : RelPath) (depth : Nat)
    (pfx : List Char) :
    walkNodeF maxDepth ign (fuel + 1) (.dir nm l cs) erel depth pfx
      = if maxDepth ≠ 0 && depth > maxDepth then []
        else if !l then []
        else walkLevel ign (walkNodeF maxDepth ign fuel)
          (sortByStable entryLe cs) erel depth pfx := rfl

/-- Walking a directory tree is unchanged when the subtree below every
ignored directory is removed: an ignored directory is never recursed
into, so nothing below it can contribute a tree line. -/
theorem walkNodeF_prune (maxDepth : Nat) (ign : RelPath → Bool) :
    ∀ (fuel : Nat) (node : FSNode) (erel : RelPath) (depth : Nat) (pfx : List Char),
      ign erel = false →
      walkNodeF maxDepth (some ign) fuel (pruneOwn ign fuel erel node) erel depth pfx
        = walkNodeF maxDepth (some ign) fuel node erel depth pfx := by
  intro fuel
  induction fuel with
  | zero => intro node erel depth pfx _; rfl
  | succ fuel ih =>
    intro node erel depth pfx hrel
    cases node with
    | file nm d => rfl
    | dir nm l cs =>
      have hprune : pruneOwn ign (fuel + 1) erel (.dir nm l cs)
          = .dir nm l (cs.map (fun c => pruneOwn ign fuel (erel ++ [c.name]) c)) := by
        simp [pruneOwn, hrel]
      rw [hprune, walkNodeF_dir, walkNodeF_dir]
      split
      · rfl
      · split
        · rfl
        · rw [sortByStable_map entryLe (fun c => pruneOwn ign fuel (erel ++ [c.name]) c)
            entryLe
            (entryLe_of_preserve _ (fun e => pruneOwn_name ign fuel (erel ++ [e.name]) e)
              (fun e => pruneOwn_isFile ign fuel (erel ++ [e.name]) e)) cs]
          exact walkLevel_congr (some ign) (walkNodeF maxDepth (some ign) fuel)
            (walkNodeF maxDepth (some ign) fuel)
            (fun c => pruneOwn ign fuel (erel ++ [c.name]) c)
            (fun e => pruneOwn_name ign fuel (erel ++ [e.name]) e)
            (fun e => pruneOwn_isFile ign fuel (erel ++ [e.name]) e)
            (sortByStable entryLe cs) erel depth pfx
            (fun e _ _ hign p' => ih e (erel ++ [e.name]) (depth + 1) p' hign)

/-- With a non-zero depth limit `N`, the walk is unchanged when the tree
is cut just below depth `N`: entries deeper than the limit contribute no
tree line.  `depth` is the nesting depth of `node`'s children, so
`maxDepth + 1 - depth` levels of `node`'s subtree are kept. -/
theorem walkNodeF_truncate (maxDepth : Nat) (hmd : maxDepth ≠ 0)
    (ign : Option (RelPath → Bool)) :
    ∀ (fuel : Nat) (node : FSNode) (erel : RelPath) (depth : Nat) (pfx : List Char),
      walkNodeF maxDepth ign fuel (truncateTo (maxDepth + 1 - depth) node) erel depth pfx
        = walkNodeF maxDepth ign fuel node erel depth pfx := by
  intro fuel
  induction fuel with
  | zero => intro node erel depth pfx; rfl
  | succ fuel ih =>
    intro node erel depth pfx
    cases node with
    | file nm d => cases h : maxDepth + 1 - depth <;> rfl
    | dir nm l cs =>
      by_cases hgt : depth > maxDepth
      · have hk0 : maxDepth + 1 - depth = 0 := by omega
        rw [hk0]
        have hguard : (decide (maxDepth ≠ 0) && decide (depth > maxDepth)) = true := by
          simp [hmd, hgt]
        simp only [truncateTo, walkNodeF_dir, hguard]
        rfl
      · have hk : maxDepth + 1 - depth = (maxDepth - depth) + 1 := by omega
        rw [hk]
        simp only [truncateTo, walkNodeF_dir]
        split
        · rfl
        · split
          · rfl
          · rw [sortByStable_map entryLe (fun c => truncateTo (maxDepth - depth) c)
              entryLe
              (entryLe_of_preserve _ (fun e => truncateTo_name (maxDepth - depth) e)
                (fun e => truncateTo_isFile (maxDepth - depth) e)) cs]
            refine walkLevel_congr ign (walkNodeF maxDepth ign fuel)
              (walkNodeF maxDepth ign fuel)
              (fun c => truncateTo (maxDepth - depth) c)
              (fun e => truncateTo_name (maxDepth - depth) e)
              (fun e => truncateTo_isFile (maxDepth - depth) e)
              (sortByStable entryLe cs) erel depth pfx ?_
            intro e _ _ _ p'
            have hk2 : maxDepth - depth = maxDepth + 1 - (depth + 1) := by omega
            rw [hk2]
            exact ih e (erel ++ [e.name]) (depth + 1) p'

/-! ## Per-directory facts about emitted lines and collected files -/

/-- The loop emits, for a file entry heading the list, exactly one line
with no marker and no recursion, whatever the ignore predicate says. -/
theorem walkLevel_file_cons (ign : Option (RelPath → Bool))
    (subF : FSNode → RelPath → Nat → List Char → List (List Char))
    (nm : String) (d : FileData) (rest : List FSNode) (rel : RelPath)
    (depth : Nat) (pfx : List Char) :
    walkLevel ign subF (.file nm d :: rest) rel depth pfx
      = (pfx ++ (if rest.isEmpty then "└── " else "├── ").toList ++ nm.toList)
          :: walkLevel ign subF rest rel depth pfx := by
  simp [walkLevel, FSNode.isFile, FSNode.name]

/-- Every file entry of a directory gets a tree line: its prefix, one of
the two branch connectors, and its bare name (never the ignored
marker). -/
theorem walkLevel_file_line (ign : Option (RelPath → Bool))
    (subF : FSNode → RelPath → Nat → List Char → List (List Char)) :
    ∀ (cs : List FSNode) (rel : RelPath) (depth : Nat) (pfx : List Char)
      (nm : String) (d : FileData), (.file nm d) ∈ cs →
    ∃ br, (br = "├── ".toList ∨ br = "└── ".toList) ∧
      (pfx ++ br ++ nm.toList) ∈ walkLevel ign subF cs rel depth pfx := by
  intro cs
  induction cs with
  | nil => intro rel depth pfx nm d h; exact absurd h (List.not_mem_nil _)
  | cons e rest ih =>
    intro rel depth pfx nm d h
    rcases List.mem_cons.mp h with rfl | h
    · rw [walkLevel_file_cons]
      refine ⟨(if rest.isEmpty then "└── " else "├── ").toList, ?_, List.mem_cons_self _ _⟩
      cases rest.isEmpty <;> simp
    · obtain ⟨br, hbr, hmem⟩ := ih rel depth pfx nm d h
      refine ⟨br, hbr, ?_⟩
      cases e with
      | file nm2 d2 =>
        rw [walkLevel_file_cons]
        exact List.mem_cons_of_mem _ hmem
      | dir nm2 l2 cs2 =>
        simp only [walkLevel]
        exact List.mem_cons_of_mem _ (List.mem_append_right _ hmem)

/-- A file failing one of the loop's gates is not among the rendered
candidates. -/
theorem not_mem_candidatePairs (cfg : Config) (allowed_by_git : Option (List RelPath))
    (pspec : Option (RelPath → Bool)) (fuel : Nat) (root : FSNode)
    (pd : RelPath × FileData)
    (h : renderedFile cfg allowed_by_git pspec pd.1 pd.2 = false) :
    pd ∉ candidatePairs cfg allowed_by_git pspec fuel root := by
  intro hmem
  have := (List.mem_filter.mp hmem).2
  rw [h] at this
  exact Bool.false_ne_true this

/-- Membership among the rendered candidates is decided file by file:
it requires exactly that the walk visits the file and that the file
itself passes the three gates. -/
theorem mem_candidatePairs_iff (cfg : Config) (allowed_by_git : Option (List RelPath))
    (pspec : Option (RelPath → Bool)) (fuel : Nat) (root : FSNode)
    (pd : RelPath × FileData) :
    pd ∈ candidatePairs cfg allowed_by_git pspec fuel root
      ↔ pd ∈ walkFiles fuel root
          ∧ renderedFile cfg allowed_by_git pspec pd.1 pd.2 = true := by
  simp [candidatePairs, List.mem_filter]

/-- Concatenating a prefix of the write calls yields a prefix of the
whole document. -/
theorem chunks_take_flatten_prefix (chunks : List (List Char)) (k : Nat) :
    (chunks.take k).flatten ++ (chunks.drop k).flatten = chunks.flatten := by
  rw [← List.flatten_append, List.take_append_drop]

/-! ## Concrete fixtures used by witnesses and counterexamples -/

/-- A small readable text file: 2 bytes, no null byte, content `hi`. -/
def fdSmall : FileData := ⟨some 2, some [104, 105], some "hi".toList⟩

/-- The default heading template of the shipped configuration. -/
def fmtPlain : OutFormat := ⟨"", "### \x7bpath\x7d", true⟩

/-- Run with the include list `["*.py"]` and nothing else. -/
def cfgC1 : Config := ⟨"r", ⟨["*.py"], []⟩, [], false, 0, true, fmtPlain⟩

/-- Root containing only the directory `d` with the file `d/f.py`. -/
def fsC1 : FSNode := .dir "r" true [.dir "d" true [.file "f.py" fdSmall]]

/-- The spec's own scenario: `*.key` both excluded and included. -/
def cfgC2 : Config := ⟨"r", ⟨["*.key"], ["*.key"]⟩, [], false, 0, true, fmtPlain⟩

/-- Run with tree depth 1 and no filters. -/
def cfgC3 : Config := ⟨"r", ⟨[], []⟩, [], false, 1, true, fmtPlain⟩

/-- Root containing `d/deep.py`, two levels down. -/
def fsC3 : FSNode := .dir "r" true [.dir "d" true [.file "deep.py" fdSmall]]

/-- Run with no filters and no tree block. -/
def cfgC4 : Config := ⟨"r", ⟨[], []⟩, [], false, 0, false, fmtPlain⟩

/-- Root containing the subdirectory `a` (with `a/b.txt`) and the root
file `z.txt`. -/
def fsC4 : FSNode := .dir "r" true [.dir "a" true [.file "b.txt" fdSmall], .file "z.txt" fdSmall]

/-- Run with a non-empty preamble and no tree block. -/
def cfgC5 : Config := ⟨"r", ⟨[], []⟩, [], false, 0, false, ⟨"P ", "### \x7bpath\x7d", true⟩⟩

/-- Root containing the single file `a.py`. -/
def fsC5 : FSNode := .dir "r" true [.file "a.py" fdSmall]

/-- Root containing the two files `a.txt` and `B.txt`. -/
def fsC8 : FSNode := .dir "r" true [.file "a.txt" fdSmall, .file "B.txt" fdSmall]

/-- A text file one byte above the 10 MiB render limit (well under the
50 MiB sniffer ceiling, with no null byte in its sample). -/
def fdC9 : FileData := ⟨some (10 * 1024 * 1024 + 1), some [104], some "x".toList⟩

/-- Root containing the single oversized text file `big.txt`. -/
def fsC9 : FSNode := .dir "r" true [.file "big.txt" fdC9]

/-! ## Claims -/

/-- C2: a path matching any exclude pattern is ignored by
`is_ignored_path` (and hence rejected by `should_include`), whatever the
include list, extension set, git data or pathspec matcher say:
exclude patterns are checked first and return immediately. -/
theorem C2_exclude_overrides_include (rel : RelPath) (isDir : Bool) (cfg : Config)
    (git : Option (List RelPath)) (pspec : Option (RelPath → Bool)) (pat : String)
    (hmem : pat ∈ cfg.filters.exclude) (hmatch : relMatch rel pat = true) :
    is_ignored_path rel isDir cfg git pspec = true
      ∧ should_include rel cfg git pspec = false := by
  have hany : cfg.filters.exclude.any (fun p => relMatch rel p) = true :=
    List.any_eq_true.mpr ⟨pat, hmem, hmatch⟩
  exact ⟨by simp [is_ignored_path, hany], by simp [should_include, is_ignored_path, hany]⟩

/-- Witness for C2: `secret.key` matches the exclude pattern `*.key`
and is ignored even though the include list also contains `*.key`. -/
theorem C2_witness :
    is_ignored_path ["secret.key"] false cfgC2 none none = true
      ∧ should_include ["secret.key"] cfgC2 none none = false :=
  C2_exclude_overrides_include ["secret.key"] false cfgC2 none none "*.key"
    (by decide) (by decide)

/-- C7: `is_text_file` returns `False` above the 50 MiB ceiling (for
any sample data, i.e. without reading content), `True` for empty files,
otherwise `True` exactly when the bounded sample prefix has no null
byte, and `False` on a failed `stat` or read instead of raising. -/
theorem C7_is_text_file_spec (d : FileData) :
    (d.statSize = none → is_text_file d 512 = false)
    ∧ (∀ sz, d.statSize = some sz → 50 * 1024 * 1024 < sz → is_text_file d 512 = false)
    ∧ (d.statSize = some 0 → is_text_file d 512 = true)
    ∧ (∀ sz, d.statSize = some sz → 0 < sz → sz ≤ 50 * 1024 * 1024 →
        (d.sampleBytes = none → is_text_file d 512 = false)
        ∧ (∀ bs, d.sampleBytes = some bs →
            (is_text_file d 512 = true ↔ (0 : Nat) ∉ bs.take (min (min 512 sz) 1024)))) := by
  obtain ⟨os, ob, ot⟩ := d
  refine ⟨?_, ?_, ?_, ?_⟩
  · rintro rfl; rfl
  · rintro sz rfl h
    simp only [is_text_file]
    rw [if_pos h]
  · rintro rfl; rfl
  · rintro sz rfl h0 hle
    constructor
    · rintro rfl
      simp only [is_text_file]
      rw [if_neg (by omega)]
      rw [if_neg (by simpa using Nat.pos_iff_ne_zero.mp h0)]
    · rintro bs rfl
      simp only [is_text_file]
      rw [if_neg (by omega)]
      rw [if_neg (by simpa using Nat.pos_iff_ne_zero.mp h0)]
      simp [List.contains]

/-- Witness for C7: a failed `stat` is non-text, an empty file is text,
a failed read is non-text, and for a 3-byte file the verdict is the
null-byte test on its sample prefix. -/
theorem C7_witness :
    is_text_file ⟨none, none, none⟩ 512 = false
    ∧ is_text_file ⟨some (50 * 1024 * 1024 + 1), some [104], none⟩ 512 = false
    ∧ is_text_file ⟨some 0, none, none⟩ 512 = true
    ∧ is_text_file ⟨some 3, none, none⟩ 512 = false
    ∧ (is_text_file ⟨some 3, some [104, 0, 105], none⟩ 512 = true
        ↔ (0 : Nat) ∉ ([104, 0, 105] : List Nat).take (min (min 512 3) 1024)) :=
  ⟨(C7_is_text_file_spec _).1 rfl,
   (C7_is_text_file_spec _).2.1 _ rfl (by decide),
   (C7_is_text_file_spec _).2.2.1 rfl,
   ((C7_is_text_file_spec _).2.2.2 3 rfl (by decide) (by decide)).1 rfl,
   ((C7_is_text_file_spec _).2.2.2 3 rfl (by decide) (by decide)).2 _ rfl⟩

/-- C6: a decoded content longer than the 100000-character ceiling is
written as exactly its first 100000 characters followed by the
truncation notice; content at or below the ceiling is written
unmodified. -/
theorem C6_truncation_spec (c : List Char) :
    (100000 < c.length →
      renderContent (some c)
        = c.take 100000 ++ "\n\n... (truncated - file too long for LLM context)".toList)
    ∧ (c.length ≤ 100000 → renderContent (some c) = c) := by
  constructor
  · intro h
    simp only [renderContent]
    rw [if_pos h]
  · intro h
    simp only [renderContent]
    rw [if_neg (by omega)]

/-- Witness for C6: a 100001-character content is truncated to its
first 100000 characters plus the notice. -/
theorem C6_witness :
    100000 < (List.replicate 100001 'a').length
    ∧ renderContent (some (List.replicate 100001 'a'))
        = List.replicate 100000 'a'
            ++ "\n\n... (truncated - file too long for LLM context)".toList := by
  have h : 100000 < (List.replicate 100001 'a').length := by
    rw [List.length_replicate]
    omega
  refine ⟨h, ?_⟩
  rw [(C6_truncation_spec (List.replicate 100001 'a')).1 h, List.take_replicate]
  have hm : min 100000 100001 = 100000 := by omega
  rw [hm]

/-- C10: the tree loop emits a line for every file entry of a visited
directory, with the bare name as label — the ignored marker and the
pruning recursion exist only for directory entries, whatever the ignore
predicate says about any path.  First conjunct: a file entry contributes
exactly its own unmarked line, independent of the ignore predicate and
with no recursion.  Second conjunct: every file entry of the directory
has such a line in the directory's output. -/
theorem C10_files_always_listed (ign : Option (RelPath → Bool))
    (subF : FSNode → RelPath → Nat → List Char → List (List Char))
    (cs : List FSNode) (rel : RelPath) (depth : Nat) (pfx : List Char)
    (nm : String) (d : FileData) :
    (walkLevel ign subF (.file nm d :: cs) rel depth pfx
      = (pfx ++ (if cs.isEmpty then "└── " else "├── ").toList ++ nm.toList)
          :: walkLevel ign subF cs rel depth pfx)
    ∧ ((.file nm d) ∈ cs →
        ∃ br, (br = "├── ".toList ∨ br = "└── ".toList) ∧
          (pfx ++ br ++ nm.toList) ∈ walkLevel ign subF cs rel depth pfx) :=
  ⟨walkLevel_file_cons ign subF nm d cs rel depth pfx,
   fun h => walkLevel_file_line ign subF cs rel depth pfx nm d h⟩

/-- Witness for C10: with an ignore predicate that marks everything,
the file `a.py` still gets its unmarked line. -/
theorem C10_witness :
    (walkLevel (some (fun _ => true)) (fun _ _ _ _ => [])
        (.file "a.py" fdSmall :: [.file "a.py" fdSmall]) [] 1 []
      = ([] ++ (if ([FSNode.file "a.py" fdSmall] : List FSNode).isEmpty
            then "└── " else "├── ").toList ++ "a.py".toList)
          :: walkLevel (some (fun _ => true)) (fun _ _ _ _ => [])
              [.file "a.py" fdSmall] [] 1 [])
    ∧ (∃ br, (br = "├── ".toList ∨ br = "└── ".toList) ∧
        ([] ++ br ++ "a.py".toList)
          ∈ walkLevel (some (fun _ => true)) (fun _ _ _ _ => [])
              [.file "a.py" fdSmall] [] 1 []) :=
  ⟨(C10_files_always_listed (some (fun _ => true)) (fun _ _ _ _ => [])
      [.file "a.py" fdSmall] [] 1 [] "a.py" fdSmall).1,
   (C10_files_always_listed (some (fun _ => true)) (fun _ _ _ _ => [])
      [.file "a.py" fdSmall] [] 1 [] "a.py" fdSmall).2 (List.mem_cons_self _ _)⟩

/-- C9: a file whose `stat` fails, or whose size exceeds 10 MiB, is
skipped by the content loop before `is_text_file` runs and never
rendered — even though files between 10 MiB and the 50 MiB sniffer
ceiling pass `is_text_file` — while the tree still lists it. -/
theorem C9_size_gate (cfg : Config) (git : Option (List RelPath))
    (pspec : Option (RelPath → Bool)) (fuel : Nat) (root : FSNode)
    (p : RelPath) (d : FileData) :
    (d.statSize = none →
      renderedFile cfg git pspec p d = false
        ∧ (p, d) ∉ candidatePairs cfg git pspec fuel root)
    ∧ (∀ sz, d.statSize = some sz → 10 * 1024 * 1024 < sz →
        (renderedFile cfg git pspec p d = false
          ∧ (p, d) ∉ candidatePairs cfg git pspec fuel root)
        ∧ (sz ≤ 50 * 1024 * 1024 → ∀ bs, d.sampleBytes = some bs →
            (0 : Nat) ∉ bs.take (min (min 512 sz) 1024) → is_text_file d 512 = true))
    ∧ (∀ (ign : Option (RelPath → Bool)) subF cs rel depth pfx nm,
        (FSNode.file nm d) ∈ cs →
        ∃ br, (br = "├── ".toList ∨ br = "└── ".toList) ∧
          (pfx ++ br ++ nm.toList) ∈ walkLevel ign subF cs rel depth pfx) := by
  refine ⟨?_, ?_, ?_⟩
  · intro hs
    have hr : renderedFile cfg git pspec p d = false := by
      simp [renderedFile, sizeOkForRender, hs]
    exact ⟨hr, not_mem_candidatePairs cfg git pspec fuel root (p, d) hr⟩
  · intro sz hs hgt
    refine ⟨?_, ?_⟩
    · have hr : renderedFile cfg git pspec p d = false := by
        simp [renderedFile, sizeOkForRender, hs, hgt]
      exact ⟨hr, not_mem_candidatePairs cfg git pspec fuel root (p, d) hr⟩
    · intro hle bs hb hnull
      obtain ⟨os, ob, ot⟩ := d
      cases hs
      cases hb
      simp only [is_text_file]
      rw [if_neg (by omega)]
      rw [if_neg (by simp; omega)]
      simpa [List.contains] using hnull
  · intro ign subF cs rel depth pfx nm hmem
    exact walkLevel_file_line ign subF cs rel depth pfx nm d hmem

/-- Witness for C9: the 10 MiB + 1 byte text file `big.txt` passes the
sniffer but is not rendered, and the tree still lists it. -/
theorem C9_witness :
    renderedFile cfgC4 none none ["big.txt"] fdC9 = false
    ∧ (["big.txt"], fdC9) ∉ candidatePairs cfgC4 none none 10 fsC9
    ∧ is_text_file fdC9 512 = true
    ∧ (∃ br, (br = "├── ".toList ∨ br = "└── ".toList) ∧
        ([] ++ br ++ "big.txt".toList)
          ∈ walkLevel (some (fun _ => false)) (walkNodeF 0 (some (fun _ => false)) 9)
              [.file "big.txt" fdC9] [] 1 []) := by
  have h := C9_size_gate cfgC4 none none 10 fsC9 ["big.txt"] fdC9
  have h2 := (h.2.1 (10 * 1024 * 1024 + 1) rfl (by omega))
  refine ⟨(h2.1).1, (h2.1).2, ?_, ?_⟩
  · exact h2.2 (by omega) [104] rfl (by decide)
  · exact h.2.2 (some (fun _ => false)) (walkNodeF 0 (some (fun _ => false)) 9)
      [.file "big.txt" fdC9] [] 1 [] "big.txt" (List.mem_cons_self _ _)

/-- Counterexample for C1: with include list `["*.py"]`, the directory
`d` is marked ignored (the tree shows `d *` and is pruned), yet its
descendant `d/f.py` — which individually matches the include pattern —
is rendered as a content section: `os.walk` does not prune, it filters
file by file. -/
theorem C1_counterexample :
    is_ignored_path ["d"] true cfgC1 none none = true
    ∧ build_ascii_tree "r".toList 0
        (some (fun p => is_ignored_path p true cfgC1 none none)) 10 fsC1
        = "r\n└── d *".toList
    ∧ relMatch ["d", "f.py"] "*.py" = true
    ∧ (["d", "f.py"], fdSmall) ∈ candidatePairs cfgC1 none none 10 fsC1 := by
  refine ⟨by decide, by decide, by decide, by decide⟩

/-- C1 (amended): pruning is absolute for the tree — the tree walk is
unchanged when the subtree below every ignored directory is deleted, so
no descendant of an ignored directory contributes a tree line — but the
content section is filtered file by file: a file is rendered exactly
when the walk reaches it in `os.walk` (which never prunes) and the file
itself passes the size, text-sniff and `should_include` gates,
regardless of any ancestor's ignored verdict. -/
theorem C1_amended_tree_pruning_only (maxDepth : Nat) (ign : RelPath → Bool)
    (fuel : Nat) (node : FSNode) (erel : RelPath) (depth : Nat) (pfx : List Char)
    (hrel : ign erel = false) :
    (walkNodeF maxDepth (some ign) fuel (pruneOwn ign fuel erel node) erel depth pfx
       = walkNodeF maxDepth (some ign) fuel node erel depth pfx)
    ∧ (∀ (cfg : Config) (git : Option (List RelPath)) (pspec : Option (RelPath → Bool))
        (f2 : Nat) (root : FSNode) (pd : RelPath × FileData),
        pd ∈ candidatePairs cfg git pspec f2 root
          ↔ pd ∈ walkFiles f2 root ∧ renderedFile cfg git pspec pd.1 pd.2 = true) :=
  ⟨walkNodeF_prune maxDepth ign fuel node erel depth pfx hrel,
   fun cfg git pspec f2 root pd => mem_candidatePairs_iff cfg git pspec f2 root pd⟩

/-- Witness for C1 (amended): at the counterexample's filesystem, with
the predicate marking exactly the directory `d` as ignored. -/
theorem C1_witness :
    (walkNodeF 0 (some (fun p => decide (p = ["d"]))) 10
        (pruneOwn (fun p => decide (p = ["d"])) 10 [] fsC1) [] 1 []
      = walkNodeF 0 (some (fun p => decide (p = ["d"]))) 10 fsC1 [] 1 [])
    ∧ ((["d", "f.py"], fdSmall) ∈ candidatePairs cfgC1 none none 10 fsC1
        ↔ (["d", "f.py"], fdSmall) ∈ walkFiles 10 fsC1
            ∧ renderedFile cfgC1 none none ["d", "f.py"] fdSmall = true) :=
  ⟨(C1_amended_tree_pruning_only 0 (fun p => decide (p = ["d"]))
      10 fsC1 [] 1 [] (by decide)).1,
   (C1_amended_tree_pruning_only 0 (fun p => decide (p = ["d"]))
      10 fsC1 [] 1 [] (by decide)).2 cfgC1 none none 10 fsC1 (["d", "f.py"], fdSmall)⟩

/-- Counterexample for C3: with tree depth 1 the tree stops at `d`, yet
the file `d/deep.py`, two levels below the root, is still collected and
rendered — the content loop never consults `tree_depth`. -/
theorem C3_counterexample :
    cfgC3.tree_depth = 1
    ∧ build_ascii_tree "r".toList cfgC3.tree_depth
        (some (fun p => is_ignored_path p true cfgC3 none none)) 10 fsC3
        = "r\n└── d".toList
    ∧ (["d", "deep.py"], fdSmall) ∈ candidatePairs cfgC3 none none 10 fsC3 := by
  refine ⟨rfl, by decide, by decide⟩

/-- C3 (amended): with tree depth `N > 0` the tree walk is unchanged
when the tree is cut just below depth `N`, so no tree line exists for an
entry deeper than `N`; but the depth limit does not restrict the content
section — the collected candidates are identical for every value of
`tree_depth`. -/
theorem C3_amended_depth_limits_tree_only :
    (∀ (maxDepth : Nat), maxDepth ≠ 0 → ∀ (ign : Option (RelPath → Bool)) (fuel : Nat)
        (node : FSNode) (erel : RelPath) (depth : Nat) (pfx : List Char),
      walkNodeF maxDepth ign fuel (truncateTo (maxDepth + 1 - depth) node) erel depth pfx
        = walkNodeF maxDepth ign fuel node erel depth pfx)
    ∧ (∀ (cfg : Config) (n : Nat) (git : Option (List RelPath))
        (pspec : Option (RelPath → Bool)) (fuel : Nat) (root : FSNode),
        candidatePairs { cfg with tree_depth := n } git pspec fuel root
          = candidatePairs cfg git pspec fuel root) :=
  ⟨fun maxDepth h ign fuel node erel depth pfx =>
      walkNodeF_truncate maxDepth h ign fuel node erel depth pfx,
   fun cfg n git pspec fuel root => rfl⟩

/-- Witness for C3 (amended), at the counterexample's own run. -/
theorem C3_witness :
    (walkNodeF 1 (some (fun _ => false)) 10 (truncateTo (1 + 1 - 1) fsC3) [] 1 []
      = walkNodeF 1 (some (fun _ => false)) 10 fsC3 [] 1 [])
    ∧ candidatePairs { cfgC4 with tree_depth := 7 } none none 10 fsC3
        = candidatePairs cfgC4 none none 10 fsC3 :=
  ⟨C3_amended_depth_limits_tree_only.1 1 (by decide) (some (fun _ => false)) 10 fsC3 [] 1 [],
   C3_amended_depth_limits_tree_only.2 cfgC4 7 none none 10 fsC3⟩

/-- Counterexample for C4: the run over a root holding `z.txt` and the
subdirectory `a` (with `a/b.txt`) renders `z.txt` first and `a/b.txt`
second, although `a/b.txt` precedes `z.txt` in the lexicographic order
of relative posix paths: sections follow the traversal order, not a
global sort. -/
theorem C4_counterexample :
    candidatePairs cfgC4 none none 10 fsC4
      = [(["z.txt"], fdSmall), (["a", "b.txt"], fdSmall)]
    ∧ charListLt (relPosixChars ["a", "b.txt"]) (relPosixChars ["z.txt"]) = true := by
  refine ⟨by decide, by decide⟩

/-- C4 (amended): sections are emitted in `os.walk` order — each visited
directory contributes first its own files, sorted lexicographically by
filename, and then the contents of its subdirectories in enumeration
order; the resulting sequence is not globally sorted by relative path. -/
theorem C4_amended_walk_order :
    (∀ (children : List FSNode),
      List.Pairwise (fun a b => nameLe a b = true) (dirFilePairs children))
    ∧ (∀ (fuel : Nat) (nm : String) (l : Bool) (cs : List FSNode) (rel : RelPath),
        walkFilesF (fuel + 1) (.dir nm l cs) rel
          = if !l then []
            else (dirFilePairs cs).map (fun nd => (rel ++ [nd.1], nd.2))
              ++ walkSubdirs (walkFilesF fuel) cs rel) :=
  ⟨fun children => sortByStable_pairwise nameLe nameLe_total nameLe_trans _,
   fun fuel nm l cs rel => rfl⟩

/-- Counterexample for C5: on the single-file run, stopping after the
third write call leaves the destination file holding a non-empty proper
prefix of the document — a discoverable partial artifact. -/
theorem C5_counterexample :
    ((writeChunks cfgC5 none none 10 fsC5).take 3).flatten ≠ []
    ∧ ((writeChunks cfgC5 none none 10 fsC5).take 3).flatten
        ≠ (writeChunks cfgC5 none none 10 fsC5).flatten := by
  refine ⟨by decide, by decide⟩

/-- C5 (amended): `write_markdown` opens the destination itself and
streams the document as a sequence of writes, so when writing stops
after any number of calls the destination holds precisely the
concatenation of the chunks written so far — a prefix of the complete
document (the error itself propagates and aborts the run; nothing
restores the destination). -/
theorem C5_amended_partial_prefix (cfg : Config) (git : Option (List RelPath))
    (pspec : Option (RelPath → Bool)) (fuel : Nat) (root : FSNode) (k : Nat) :
    ((writeChunks cfg git pspec fuel root).take k).flatten
        ++ ((writeChunks cfg git pspec fuel root).drop k).flatten
      = (writeChunks cfg git pspec fuel root).flatten :=
  chunks_take_flatten_prefix (writeChunks cfg git pspec fuel root) k

/-- Counterexample for C8: in a directory holding `a.txt` and `B.txt`
the tree lists `B.txt` first, although case-insensitive ordering puts
`a.txt` first — the sort key is the raw name, with no case folding. -/
theorem C8_counterexample :
    build_ascii_tree "r".toList 0 (some (fun _ => false)) 10 fsC8
      = "r\n├── B.txt\n└── a.txt".toList
    ∧ charListLe ("B.txt".toList.map Char.toLower) ("a.txt".toList.map Char.toLower)
        = false := by
  refine ⟨by decide, by decide⟩

/-- C8 (amended): at every directory `build_ascii_tree` lists the
entries sorted by the key (is-file, name) with case-SENSITIVE code-point
comparison of names — so all subdirectories precede all files, and the
output is a deterministic function of the directory contents. -/
theorem C8_amended_case_sensitive_sort (l : List FSNode) :
    List.Pairwise (fun a b => entryLe a b = true) (sortByStable entryLe l)
    ∧ List.Pairwise (fun a b => (!a.isFile || b.isFile) = true) (sortByStable entryLe l) := by
  have h := sortByStable_pairwise entryLe entryLe_total entryLe_trans l
  refine ⟨h, h.imp ?_⟩
  intro a b hab
  cases hfa : a.isFile
  · simp
  · cases hfb : b.isFile
    · exfalso
      simp [entryLe, hfa, hfb] at hab
    · simp

end Flatcat
